import Mathlib

/-
Verification of the batch source-rewriting scripts of tenant-flow.

The scripts are modelled shallowly: file contents are lists of characters,
Python's `re.finditer`/`re.sub` on the (escaped-literal) patterns of
`REPLACEMENTS` are modelled as literal substring search and leftmost
non-overlapping replacement, and file-system reads/writes are modelled by
explicit inputs and a recorded write flag.
-/

/-- File contents and text fragments are lists of characters. -/
abbrev Str := List Char

/-- True when `p` occurs as a contiguous substring of `s`
(Python's `p in s` and the match-existence of `re.finditer` for an
escaped-literal pattern `p`). -/
def occursIn (p : Str) : Str → Bool
  | [] => p.isEmpty
  | c :: rest => p.isPrefixOf (c :: rest) || occursIn p rest

/-- Fuelled version of leftmost non-overlapping literal substitution,
Python's `re.sub(pat, repl, s)` for an escaped-literal pattern.
The fuel is only a termination device; `csub` supplies `s.length`. -/
def csubF (pat repl : Str) : Nat → Str → Str
  | _, [] => []
  | 0, s => s
  | fuel + 1, c :: rest =>
    if pat.isPrefixOf (c :: rest) && !pat.isEmpty then
      repl ++ csubF pat repl fuel (rest.drop (pat.length - 1))
    else
      c :: csubF pat repl fuel rest

/-- Leftmost non-overlapping literal substitution, `re.sub(pat, repl, s)`. -/
def csub (pat repl s : Str) : Str := csubF pat repl s.length s

/-- Fuelled scanner for the start offsets of the leftmost non-overlapping
matches of the literal `pat`, Python's `[m.start() for m in re.finditer]`. -/
def matchStartsF (pat : Str) : Nat → Str → Nat → List Nat
  | _, [], _ => []
  | 0, _, _ => []
  | fuel + 1, c :: rest, i =>
    if pat.isPrefixOf (c :: rest) && !pat.isEmpty then
      i :: matchStartsF pat fuel (rest.drop (pat.length - 1)) (i + pat.length)
    else
      matchStartsF pat fuel rest (i + 1)

/-- Start offsets of the matches of `pat` in `s`. -/
def matchStarts (pat s : Str) : List Nat := matchStartsF pat s.length s 0

/-- Number of newline characters in `s`. -/
def countNl (s : Str) : Nat := s.countP (fun c => c = '\n')

/-- 1-indexed line number of offset `pos` in `content`,
Python's `content[:pos].count(chr(10)) + 1`. -/
def lineAt (content : Str) (pos : Nat) : Nat := countNl (content.take pos) + 1

/-- The 72 ordered find/replace rules of css-variable-migration.py.
Each Python pattern is an escaped-literal regular expression
(only parentheses are escaped), so a rule is embedded as the pair of the
literal text it matches and its literal replacement. -/
def REPLACEMENTS : List (Str × Str) := [
  ("var(--border)".toList, "var(--color-border)".toList),
  ("var(--background)".toList, "var(--color-background)".toList),
  ("var(--foreground)".toList, "var(--color-foreground)".toList),
  ("var(--muted)".toList, "var(--color-muted)".toList),
  ("var(--muted-foreground)".toList, "var(--color-muted-foreground)".toList),
  ("var(--primary)".toList, "var(--color-primary)".toList),
  ("var(--primary-foreground)".toList, "var(--color-primary-foreground)".toList),
  ("var(--secondary)".toList, "var(--color-secondary)".toList),
  ("var(--secondary-foreground)".toList, "var(--color-secondary-foreground)".toList),
  ("var(--accent)".toList, "var(--color-accent)".toList),
  ("var(--accent-foreground)".toList, "var(--color-accent-foreground)".toList),
  ("var(--destructive)".toList, "var(--color-destructive)".toList),
  ("var(--destructive-foreground)".toList, "var(--color-destructive-foreground)".toList),
  ("var(--card)".toList, "var(--color-card)".toList),
  ("var(--card-foreground)".toList, "var(--color-card-foreground)".toList),
  ("var(--popover)".toList, "var(--color-popover)".toList),
  ("var(--popover-foreground)".toList, "var(--color-popover-foreground)".toList),
  ("var(--ring)".toList, "var(--color-ring)".toList),
  ("var(--input)".toList, "var(--color-input)".toList),
  ("var(--success)".toList, "var(--color-success)".toList),
  ("var(--success-foreground)".toList, "var(--color-success-foreground)".toList),
  ("var(--warning)".toList, "var(--color-warning)".toList),
  ("var(--warning-foreground)".toList, "var(--color-warning-foreground)".toList),
  ("var(--info)".toList, "var(--color-info)".toList),
  ("var(--info-foreground)".toList, "var(--color-info-foreground)".toList),
  ("var(--sidebar)".toList, "var(--color-sidebar)".toList),
  ("var(--sidebar-foreground)".toList, "var(--color-sidebar-foreground)".toList),
  ("var(--line-height-display-2xl)".toList, "var(--leading-display-2xl)".toList),
  ("var(--line-height-display-xl)".toList, "var(--leading-display-xl)".toList),
  ("var(--line-height-display-lg)".toList, "var(--leading-display-lg)".toList),
  ("var(--line-height-display-md)".toList, "var(--leading-display-md)".toList),
  ("var(--line-height-display-sm)".toList, "var(--leading-display-sm)".toList),
  ("var(--line-height-large-title)".toList, "var(--leading-large-title)".toList),
  ("var(--line-height-title-1)".toList, "var(--leading-title-1)".toList),
  ("var(--line-height-title-2)".toList, "var(--leading-title-2)".toList),
  ("var(--line-height-title-3)".toList, "var(--leading-title-3)".toList),
  ("var(--line-height-headline)".toList, "var(--leading-headline)".toList),
  ("var(--line-height-body)".toList, "var(--leading-body)".toList),
  ("var(--line-height-callout)".toList, "var(--leading-callout)".toList),
  ("var(--line-height-subheadline)".toList, "var(--leading-subheadline)".toList),
  ("var(--line-height-footnote)".toList, "var(--leading-footnote)".toList),
  ("var(--line-height-caption)".toList, "var(--leading-caption)".toList),
  ("var(--line-height-none)".toList, "var(--leading-none)".toList),
  ("var(--line-height-tight)".toList, "var(--leading-tight)".toList),
  ("var(--line-height-snug)".toList, "var(--leading-snug)".toList),
  ("var(--line-height-normal)".toList, "var(--leading-normal)".toList),
  ("var(--line-height-relaxed)".toList, "var(--leading-relaxed)".toList),
  ("var(--line-height-loose)".toList, "var(--leading-loose)".toList),
  ("var(--radius-small)".toList, "var(--radius-sm)".toList),
  ("var(--radius-medium)".toList, "var(--radius-md)".toList),
  ("var(--radius-large)".toList, "var(--radius-lg)".toList),
  ("var(--radius-xlarge)".toList, "var(--radius-xl)".toList),
  ("var(--radius-xxlarge)".toList, "var(--radius-2xl)".toList),
  ("var(--shadow-small)".toList, "var(--shadow-sm)".toList),
  ("var(--shadow-medium)".toList, "var(--shadow-md)".toList),
  ("var(--shadow-large)".toList, "var(--shadow-lg)".toList),
  ("var(--font-display-2xl)".toList, "var(--text-display-2xl)".toList),
  ("var(--font-display-xl)".toList, "var(--text-display-xl)".toList),
  ("var(--font-display-lg)".toList, "var(--text-display-lg)".toList),
  ("var(--font-display-md)".toList, "var(--text-display-md)".toList),
  ("var(--font-display-sm)".toList, "var(--text-display-sm)".toList),
  ("var(--font-large-title)".toList, "var(--text-large-title)".toList),
  ("var(--font-title-1)".toList, "var(--text-title-1)".toList),
  ("var(--font-title-2)".toList, "var(--text-title-2)".toList),
  ("var(--font-title-3)".toList, "var(--text-title-3)".toList),
  ("var(--font-headline)".toList, "var(--text-headline)".toList),
  ("var(--font-body)".toList, "var(--text-body)".toList),
  ("var(--font-callout)".toList, "var(--text-callout)".toList),
  ("var(--font-subheadline)".toList, "var(--text-subheadline)".toList),
  ("var(--font-footnote)".toList, "var(--text-footnote)".toList),
  ("var(--font-caption-1)".toList, "var(--text-caption-1)".toList),
  ("var(--font-caption-2)".toList, "var(--text-caption-2)".toList)]

/-- One recorded match instance of process_file: the dict
appended for each match, with `line` the 1-indexed line number,
`old` the matched text (`match.group()`) and `new` the replacement. -/
structure Change where
  line : Nat
  old : Str
  new : Str
deriving DecidableEq

/-- The per-rule loop body of process_file: the change records of one rule
(one per match instance, in ascending position order). -/
def ruleChanges (content : Str) (pat repl : Str) : List Change :=
  (matchStarts pat content).map (fun p => ⟨lineAt content p, pat, repl⟩)

/-- The rule loop of process_file: rules applied sequentially in order;
a rule with matches records its changes against the current content and then
rewrites the current content (`content = re.sub(...)` only runs when
`matches` is non-empty, exactly as in the script). -/
def applyRules : List (Str × Str) → Str → List Change × Str
  | [], s => ([], s)
  | (pat, repl) :: rs, s =>
    let ms := matchStarts pat s
    if ms.isEmpty then
      applyRules rs s
    else
      let chs := ms.map (fun p => ⟨lineAt s p, pat, repl⟩)
      let r := applyRules rs (csub pat repl s)
      (chs ++ r.1, r.2)

/-- Result of processing one file in css-variable-migration.py
(the `result` dict, plus the rewritten content and whether the file was
written back, which the script performs as a side effect). -/
structure FileResult where
  changes : List Change
  modified : Bool
  error : Option Str
  newContent : Str
  wrote : Bool
deriving DecidableEq

/-- process_file on a successfully read file: run the rules, set
`modified` iff the content changed, and write back only when modified and
not in dry-run mode. -/
def processFile (content : Str) (dryRun : Bool) : FileResult :=
  let r := applyRules REPLACEMENTS content
  if r.2 ≠ content then
    { changes := r.1, modified := true, error := none, newContent := r.2,
      wrote := !dryRun }
  else
    { changes := r.1, modified := false, error := none, newContent := content,
      wrote := false }

/-- Run-level summary accumulated by main: files scanned, files counted as
modified (those whose result has a non-empty `changes` list, which is the
`if result.get(...)` test of main), and total change count. -/
structure Summary where
  scanned : Nat
  modifiedFiles : Nat
  totalChanges : Nat
deriving DecidableEq

/-- The per-file accumulation step of main's loop. -/
def summaryStep (acc : Summary) (r : FileResult) : Summary :=
  if r.changes.isEmpty then
    { acc with scanned := acc.scanned + 1 }
  else
    { scanned := acc.scanned + 1,
      modifiedFiles := acc.modifiedFiles + 1,
      totalChanges := acc.totalChanges + r.changes.length }

/-- main's run over a list of file contents. -/
def runSummary (files : List Str) (dryRun : Bool) : Summary :=
  files.foldl (fun acc f => summaryStep acc (processFile f dryRun)) ⟨0, 0, 0⟩

/-- Shape shared by every pattern and replacement of `REPLACEMENTS`:
the token starts with the four characters of `var(`, ends with a closing
parenthesis, the opening parenthesis occurs only at index 3, the closing
parenthesis occurs only at the last index, and the token has at least five
characters. These facts drive the idempotency argument. -/
def goodTok (q : Str) : Bool :=
  decide (5 ≤ q.length) &&
  q.take 4 == ['v', 'a', 'r', '('] &&
  (q.getD (q.length - 1) ' ') == ')' &&
  (List.range q.length).all (fun i =>
    (!((q.getD i ' ') == '(') || i == 3) &&
    (!((q.getD i ' ') == ')') || i == q.length - 1))

/-- Well-shapedness of a rule list: every pattern and replacement is a good
token, and no pattern equals any replacement of the list. -/
def rulesOk (rs : List (Str × Str)) : Bool :=
  rs.all (fun x => goodTok x.1 && goodTok x.2) &&
  rs.all (fun x => rs.all (fun y => !(x.1 == y.2)))

/-- Python's `str.split` on a newline: every newline separates fields, and
empty fields are kept. -/
def splitNl : Str → List Str
  | [] => [[]]
  | c :: rest =>
    if c = '\n' then [] :: splitNl rest
    else
      match splitNl rest with
      | [] => [[c]]
      | l :: ls => (c :: l) :: ls

/-- Python's `(chr(10)).join`. -/
def joinNl : List Str → Str
  | [] => []
  | [l] => l
  | l :: ls => l ++ '\n' :: joinNl ls

/-- The whitespace characters stripped by Python's `str.strip()`. -/
def pySpace (c : Char) : Bool :=
  c = ' ' || c = '\t' || c = '\n' || c = '\r' || c = '\x0b' || c = '\x0c'

/-- Python's `str.strip()`. -/
def pstrip (s : Str) : Str :=
  ((s.dropWhile pySpace).reverse.dropWhile pySpace).reverse

/-- Python's `str.endswith` for a literal suffix. -/
def endsWithS (suf s : Str) : Bool := suf.reverse.isPrefixOf s.reverse

/-- The trigger test of fix_orphaned_syntax: the line contains
`handleErrorEnhanced(` and its stripped form ends with `)`. -/
def isTrigger (l : Str) : Bool :=
  occursIn ("handleErrorEnhanced(".toList) l && endsWithS ")".toList (pstrip l)

/-- The orphaned-property test of fix_orphaned_syntax applied to the
stripped next line. -/
def orphanShape (t : Str) : Bool :=
  !t.isEmpty &&
  occursIn (":".toList) t &&
  (endsWithS ",".toList t || endsWithS "\x7d".toList t || endsWithS "\x7d)".toList t) &&
  !(("//".toList).isPrefixOf t) &&
  !(("*".toList).isPrefixOf t)

/-- The inner while-loop of fix_orphaned_syntax after a trigger line:
returns the lines it appends to `new_lines`, the lines still to be handled
by the outer loop, and the number of skipped orphan lines. Note that when a
non-orphan line is met it is appended *and left in the remaining input*,
exactly as in the script, whose inner loop breaks without advancing `i`
after appending. -/
def skipOrphans : List Str → List Str × List Str × Nat
  | [] => ([], [], 0)
  | n :: rest =>
    if orphanShape (pstrip n) then
      if endsWithS "\x7d)".toList (pstrip n) then ([], rest, 1)
      else
        let r := skipOrphans rest
        (r.1, r.2.1, r.2.2 + 1)
    else ([n], n :: rest, 0)

/-- Fuelled version of the outer while-loop of fix_orphaned_syntax.
Returns `new_lines` and the orphan count; the fuel (one unit per consumed
trigger or ordinary line) is only a termination device. -/
def fixLoopF : Nat → List Str → List Str × Nat
  | _, [] => ([], 0)
  | 0, ls => (ls, 0)
  | fuel + 1, l :: rest =>
    if isTrigger l then
      let sk := skipOrphans rest
      let r := fixLoopF fuel sk.2.1
      (l :: sk.1 ++ r.1, sk.2.2 + r.2)
    else
      let r := fixLoopF fuel rest
      (l :: r.1, r.2)

/-- The outer while-loop of fix_orphaned_syntax over the split lines. -/
def fixLoop (ls : List Str) : List Str × Nat := fixLoopF ls.length ls

/-- fix_orphaned_syntax on one file's content: rebuild the content from the
kept lines, and write back only when the content changed; the function
returns the change count when it wrote and 0 otherwise. -/
def fixOrphaned (content : Str) : Str × Nat × Bool :=
  let r := fixLoop (splitNl content)
  let newContent := joinNl r.1
  if newContent ≠ content then (newContent, r.2, true) else (content, 0, false)

/-- The duplicate-logger-import line matched by fix-all-duplicates.py. -/
def loggerLine : Str :=
  "import \x7b logger \x7d from \x27@/lib/logger\x27".toList

/-- The line filter of fix_file in fix-all-duplicates.py: drop every line
containing the logger import once one has been seen. -/
def fixFileLines : List Str → Bool → List Str
  | [], _ => []
  | l :: rest, seen =>
    if occursIn loggerLine l then
      if seen then fixFileLines rest true
      else l :: fixFileLines rest true
    else l :: fixFileLines rest seen

/-- fix_file on one file's content: dedup the logger import and write the
joined lines back unconditionally (the script has no change check). -/
def fixFileRun (content : Str) : Str × Bool :=
  (joinNl (fixFileLines (splitNl content) false), true)

/-- Outcome of reading one file: the decoded content, or the message of a
caught read exception (decode or permission failure). -/
inductive ReadRes where
  | ok (content : Str)
  | err (msg : Str)
deriving DecidableEq

/-- Modelled message of a caught write exception. -/
def writeErrMsg : Str := "write error".toList

/-- process_file with its try/except modelled explicitly: a read failure
is caught before any rule runs; a write failure is caught after `modified`
was already set and the change records were already collected. -/
def processFileE (read : ReadRes) (writeOk : Bool) (dryRun : Bool) : FileResult :=
  match read with
  | ReadRes.err m => ⟨[], false, some m, [], false⟩
  | ReadRes.ok content =>
    let r := applyRules REPLACEMENTS content
    if r.2 ≠ content then
      if dryRun then ⟨r.1, true, none, r.2, false⟩
      else if writeOk then ⟨r.1, true, none, r.2, true⟩
      else ⟨r.1, true, some writeErrMsg, r.2, false⟩
    else ⟨r.1, false, none, content, false⟩

/-- main's run with per-file read/write outcomes. -/
def runE (files : List (ReadRes × Bool)) (dryRun : Bool) : Summary :=
  files.foldl (fun acc f => summaryStep acc (processFileE f.1 f.2 dryRun)) ⟨0, 0, 0⟩

/-- Model of compiling one rule pattern with the regex engine: every
pattern of `REPLACEMENTS` is an escaped literal and compiles to a literal
matcher; `bad` stands for a pattern on which the engine raises. -/
inductive CPat where
  | lit (s : Str)
  | bad (src : Str)
deriving DecidableEq

/-- Modelled message of a caught regex-compilation exception. -/
def reErrMsg : Str := "re error".toList

/-- The rule loop of process_file over rules whose patterns still need
compiling: the first malformed pattern raises inside the loop, which the
surrounding per-file try/except turns into a recorded error, keeping the
changes of the rules already applied. -/
def rulesLoop : List (CPat × Str) → Str → List Change × Str × Option Str
  | [], s => ([], s, none)
  | (CPat.bad _, _) :: _, s => ([], s, some reErrMsg)
  | (CPat.lit pat, repl) :: rs, s =>
    let ms := matchStarts pat s
    if ms.isEmpty then rulesLoop rs s
    else
      let chs := ms.map fun p => (⟨lineAt s p, pat, repl⟩ : Change)
      let r := rulesLoop rs (csub pat repl s)
      (chs ++ r.1, r.2.1, r.2.2)

/-- process_file over rules with possibly-malformed patterns: an exception
in the loop leaves `modified` false, records the error, and writes nothing. -/
def processFileG (rules : List (CPat × Str)) (content : Str) (dryRun : Bool) :
    FileResult :=
  let r := rulesLoop rules content
  match r.2.2 with
  | some m => ⟨r.1, false, some m, content, false⟩
  | none =>
    if r.2.1 ≠ content then ⟨r.1, true, none, r.2.1, !dryRun⟩
    else ⟨r.1, false, none, content, false⟩

/-- main's run over possibly-malformed rules. -/
def runG (rules : List (CPat × Str)) (files : List Str) (dryRun : Bool) : Summary :=
  files.foldl (fun acc f => summaryStep acc (processFileG rules f dryRun)) ⟨0, 0, 0⟩

/-- True when some rule's pattern fails to compile. -/
def hasBad : List (CPat × Str) → Bool :=
  fun rs => rs.any (fun r => match r.1 with | CPat.bad _ => true | CPat.lit _ => false)

/-- Second definition, following the words of the claim that line numbers
are computed against the original file content as read from disk: identical
to `applyRules` except that `lineAt` is applied to `orig` rather than to the
content current at the rule's pass. -/
def applyRulesOrig (orig : Str) : List (Str × Str) → Str → List Change × Str
  | [], s => ([], s)
  | (pat, repl) :: rs, s =>
    let ms := matchStarts pat s
    if ms.isEmpty then applyRulesOrig orig rs s
    else
      let chs := ms.map fun p => (⟨lineAt orig p, pat, repl⟩ : Change)
      let r := applyRulesOrig orig rs (csub pat repl s)
      (chs ++ r.1, r.2)

/-- Number of occurrences of `pat` in `s` (non-overlapping, leftmost). -/
def countOccs (pat s : Str) : Nat := (matchStarts pat s).length

/-- A file path as its sequence of components, Python's `Path.parts`. -/
abbrev PPath := List Str

/-- Strict lexicographic comparison of strings by code point,
Python's `str.__lt__`. -/
def strLt : Str → Str → Bool
  | [], [] => false
  | [], _ :: _ => true
  | _ :: _, [] => false
  | a :: xs, b :: ys => if a = b then strLt xs ys else decide (a < b)

/-- Path comparison used by Python's `sorted` on Path objects: lexicographic
over the component tuple with string comparison per component. -/
def pathLe : PPath → PPath → Bool
  | [], _ => true
  | _ :: _, [] => false
  | p :: ps, q :: qs => if p = q then pathLe ps qs else strLt p q

/-- `rglob` name filter: the path's final component ends with `ext`. -/
def extMatches (ext : Str) (p : PPath) : Bool :=
  match p.getLast? with
  | some name => endsWithS ext name
  | none => false

/-- find_files of css-variable-migration.py over a directory listing:
collect the rglob results of each extension in turn and sort the combined
list. -/
def findFiles (exts : List Str) (listing : List PPath) : List PPath :=
  (exts.flatMap (fun e => listing.filter (extMatches e))).mergeSort pathLe

/-- The os.walk traversal of fix_orphaned's main: files are visited in the
order the operating system reports them; the script applies no sorting and
keeps names ending in a dot-ts suffix. -/
def osWalkTs (entries : List PPath) : List PPath :=
  entries.filter (extMatches ".ts".toList)

/-- Input on which fix_orphaned_syntax is not idempotent: the orphan
skipper eats the legitimate line after a removed block on a second pass. -/
def c1orig : Str := "  handleErrorEnhanced(err)\na: b,\nc: d\x7d)\ne: f,".toList

/-- Input showing that recorded line numbers are not computed against the
content as read from disk: an earlier rule shortens line 1 before a later
rule matches on line 2. -/
def c2input : Str := "var(--line-height-none)abc\nvar(--radius-small)".toList

/-- An order-sensitive rule pair in the sense of the specification: the
first rule's replacement matches the second rule's pattern. -/
def ruleA : Str × Str := ("var(--a)".toList, "var(--b)".toList)

/-- Companion rule whose pattern is `ruleA`'s replacement. -/
def ruleB : Str × Str := ("var(--b)".toList, "var(--c)".toList)

/-- The concrete scenario of the specification: the same rule matches once
on each of two lines. -/
def c4input : Str :=
  "a \x7b border-color: var(--border); \x7d\nb \x7b border-color: var(--border); \x7d".toList

/-- A rule list whose single pattern fails to compile. -/
def badRules : List (CPat × Str) := [(CPat.bad ("[".toList), "x".toList)]

/-- Unsorted order in which the operating system may report directory
entries to os.walk. -/
def walkDemo : List PPath := [["b.ts".toList], ["a.ts".toList]]

/-- Input on which fix_orphaned_syntax duplicates a kept line: a trigger
line followed by an ordinary line. -/
def c10input : List Str := ["handleErrorEnhanced(err)".toList, "hello".toList]

theorem dropLenLe (k : Nat) (l : Str) : (l.drop k).length ≤ l.length := by
  rw [List.length_drop]
  omega

theorem csubF_fuel (pat repl : Str) :
    ∀ m n s, s.length ≤ m → s.length ≤ n → csubF pat repl m s = csubF pat repl n s := by
  intro m
  induction m with
  | zero =>
    intro n s hm _
    cases s with
    | nil => cases n <;> rfl
    | cons c rest => simp at hm
  | succ m ih =>
    intro n s hm hn
    cases s with
    | nil => cases n <;> rfl
    | cons c rest =>
      cases n with
      | zero => simp at hn
      | succ n =>
        have hlen : (rest.drop (pat.length - 1)).length ≤ rest.length :=
          dropLenLe (pat.length - 1) rest
        cases hg : (pat.isPrefixOf (c :: rest) && !pat.isEmpty) with
        | true =>
          simp only [csubF, hg, if_true]
          rw [ih _ _ (le_trans hlen (Nat.le_of_succ_le_succ hm))
            (le_trans hlen (Nat.le_of_succ_le_succ hn))]
        | false =>
          simp only [csubF, hg, Bool.false_eq_true, if_false]
          rw [ih _ _ (Nat.le_of_succ_le_succ hm) (Nat.le_of_succ_le_succ hn)]

theorem csub_nil (pat repl : Str) : csub pat repl [] = [] := rfl

theorem csubF_eq_csub (pat repl : Str) {n : Nat} {s : Str} (h : s.length ≤ n) :
    csubF pat repl n s = csub pat repl s :=
  csubF_fuel pat repl n s.length s h (le_refl _)

theorem csub_cons_pos {pat : Str} (repl : Str) {c : Char} {rest : Str}
    (h : (pat.isPrefixOf (c :: rest) && !pat.isEmpty) = true) :
    csub pat repl (c :: rest) = repl ++ csub pat repl (rest.drop (pat.length - 1)) := by
  show csubF pat repl (rest.length + 1) (c :: rest) = _
  simp only [csubF, h, if_true]
  rw [csubF_eq_csub]
  exact dropLenLe (pat.length - 1) rest

theorem csub_cons_neg {pat : Str} (repl : Str) {c : Char} {rest : Str}
    (h : (pat.isPrefixOf (c :: rest) && !pat.isEmpty) = false) :
    csub pat repl (c :: rest) = c :: csub pat repl rest := by
  show csubF pat repl (rest.length + 1) (c :: rest) = _
  simp only [csubF, h, Bool.false_eq_true, if_false]
  rfl

theorem matchStartsF_fuel (pat : Str) :
    ∀ m n s i, s.length ≤ m → s.length ≤ n →
      matchStartsF pat m s i = matchStartsF pat n s i := by
  intro m
  induction m with
  | zero =>
    intro n s i hm _
    cases s with
    | nil => cases n <;> rfl
    | cons c rest => simp at hm
  | succ m ih =>
    intro n s i hm hn
    cases s with
    | nil => cases n <;> rfl
    | cons c rest =>
      cases n with
      | zero => simp at hn
      | succ n =>
        have hlen : (rest.drop (pat.length - 1)).length ≤ rest.length :=
          dropLenLe (pat.length - 1) rest
        cases hg : (pat.isPrefixOf (c :: rest) && !pat.isEmpty) with
        | true =>
          simp only [matchStartsF, hg, if_true]
          rw [ih _ _ _ (le_trans hlen (Nat.le_of_succ_le_succ hm))
            (le_trans hlen (Nat.le_of_succ_le_succ hn))]
        | false =>
          simp only [matchStartsF, hg, Bool.false_eq_true, if_false]
          rw [ih _ _ _ (Nat.le_of_succ_le_succ hm) (Nat.le_of_succ_le_succ hn)]

/-- When the scanner reports no match, substitution leaves the text unchanged
(generalised over fuel and start index). -/
theorem csubF_id_of_no_match (pat repl : Str) :
    ∀ n s i, s.length ≤ n → matchStartsF pat n s i = [] → csubF pat repl n s = s := by
  intro n
  induction n with
  | zero =>
    intro s i hm _
    cases s with
    | nil => rfl
    | cons c rest => simp at hm
  | succ n ih =>
    intro s i hm hms
    cases s with
    | nil => rfl
    | cons c rest =>
      cases hg : (pat.isPrefixOf (c :: rest) && !pat.isEmpty) with
      | true =>
        simp only [matchStartsF, hg, if_true] at hms
        exact absurd hms (List.cons_ne_nil _ _)
      | false =>
        simp only [matchStartsF, hg, Bool.false_eq_true, if_false] at hms
        simp only [csubF, hg, Bool.false_eq_true, if_false]
        rw [ih rest (i + 1) (Nat.le_of_succ_le_succ hm) hms]

theorem csub_id_of_no_match {pat : Str} (repl : Str) {s : Str}
    (h : matchStarts pat s = []) : csub pat repl s = s :=
  csubF_id_of_no_match pat repl s.length s 0 (le_refl _) h

/-- When `pat` does not occur in `s`, the scanner reports no match. -/
theorem matchStartsF_nil_of_not_occurs (pat : Str) :
    ∀ n s i, s.length ≤ n → occursIn pat s = false → matchStartsF pat n s i = [] := by
  intro n
  induction n with
  | zero =>
    intro s i hm _
    cases s with
    | nil => rfl
    | cons c rest => simp at hm
  | succ n ih =>
    intro s i hm hocc
    cases s with
    | nil => rfl
    | cons c rest =>
      simp only [occursIn, Bool.or_eq_false_iff] at hocc
      have hguard : (pat.isPrefixOf (c :: rest) && !pat.isEmpty) = false := by
        simp [hocc.1]
      simp only [matchStartsF, hguard, Bool.false_eq_true, if_false]
      exact ih rest (i + 1) (Nat.le_of_succ_le_succ hm) hocc.2

theorem matchStarts_nil_of_not_occurs {pat s : Str}
    (h : occursIn pat s = false) : matchStarts pat s = [] :=
  matchStartsF_nil_of_not_occurs pat s.length s 0 (le_refl _) h

theorem occursIn_drop {q s : Str} (k : Nat)
    (h : occursIn q s = false) : occursIn q (s.drop k) = false := by
  induction s generalizing k with
  | nil => simpa using h
  | cons c rest ih =>
    cases k with
    | zero => simpa using h
    | succ k =>
      simp only [occursIn, Bool.or_eq_false_iff] at h
      simpa using ih k h.2

/-- Bridge from the boolean prefix test to the prefix relation. -/
theorem prefOfB {a b : Str} (h : a.isPrefixOf b = true) : a <+: b :=
  List.isPrefixOf_iff_prefix.mp h

/-- Bridge from the prefix relation to the boolean prefix test. -/
theorem prefToB {a b : Str} (h : a <+: b) : a.isPrefixOf b = true :=
  List.isPrefixOf_iff_prefix.mpr h

theorem good_len {q : Str} (h : goodTok q = true) : 5 ≤ q.length := by
  simp only [goodTok, Bool.and_eq_true, decide_eq_true_eq] at h
  exact h.1.1.1

theorem good_ne_nil {q : Str} (h : goodTok q = true) : q ≠ [] := by
  have := good_len h
  intro he
  rw [he] at this
  simp at this

theorem good_isEmpty {q : Str} (h : goodTok q = true) : q.isEmpty = false :=
  List.isEmpty_eq_false.mpr (good_ne_nil h)

theorem good_take4 {q : Str} (h : goodTok q = true) :
    q.take 4 = ['v', 'a', 'r', '('] := by
  simp only [goodTok, Bool.and_eq_true, beq_iff_eq] at h
  exact h.1.1.2

theorem good_at3 {q : Str} (h : goodTok q = true)
    (hq : 3 < q.length) : q[3] = '(' := by
  have hp : (['v', 'a', 'r', '('] : Str) <+: q := by
    rw [← good_take4 h]
    exact List.take_prefix 4 q
  have h3 := hp.getElem (n := 3) (by simp)
  simpa using h3.symm

theorem good_last {q : Str} (h : goodTok q = true)
    (hl : q.length - 1 < q.length) : q[q.length - 1] = ')' := by
  have hb : ((q.getD (q.length - 1) ' ') == ')') = true := by
    simp only [goodTok, Bool.and_eq_true] at h
    exact h.1.2
  rw [List.getD_eq_getElem q ' ' hl] at hb
  exact beq_iff_eq.mp hb

theorem good_paren {q : Str} (h : goodTok q = true) {i : Nat}
    (hi : i < q.length) (hp : q[i] = '(') : i = 3 := by
  have hall := (List.all_eq_true.mp (by
    simp only [goodTok, Bool.and_eq_true] at h
    exact h.2)) i (List.mem_range.mpr hi)
  simp only [Bool.and_eq_true, Bool.or_eq_true, Bool.not_eq_true', beq_iff_eq,
    beq_eq_false_iff_ne, ne_eq] at hall
  rcases hall.1 with hne | heq
  · rw [List.getD_eq_getElem q ' ' hi] at hne
    exact absurd hp hne
  · exact heq

theorem good_close {q : Str} (h : goodTok q = true) {i : Nat}
    (hi : i < q.length) (hp : q[i] = ')') : i = q.length - 1 := by
  have hall := (List.all_eq_true.mp (by
    simp only [goodTok, Bool.and_eq_true] at h
    exact h.2)) i (List.mem_range.mpr hi)
  simp only [Bool.and_eq_true, Bool.or_eq_true, Bool.not_eq_true', beq_iff_eq,
    beq_eq_false_iff_ne, ne_eq] at hall
  rcases hall.2 with hne | heq
  · rw [List.getD_eq_getElem q ' ' hi] at hne
    exact absurd hp hne
  · exact heq

/-- A good token that is a prefix of `R ++ t` with `R` good must be `R`
itself: its closing parenthesis pins its length to that of `R`. -/
theorem good_pref_app {q R t : Str} (hq : goodTok q = true)
    (hR : goodTok R = true) (h : q <+: R ++ t) : q = R := by
  have hq5 := good_len hq
  have hR5 := good_len hR
  rcases le_or_lt q.length R.length with hle | hlt
  · have h1 : q.length - 1 < q.length := by omega
    have hqlast : q[q.length - 1] = ')' := good_last hq h1
    have h3 : q.length - 1 < R.length := by omega
    have h4 : q.length - 1 < (R ++ t).length := by
      rw [List.length_append]
      omega
    have he : q[q.length - 1] = (R ++ t)[q.length - 1] := h.getElem h1
    have he2 : (R ++ t)[q.length - 1] = R[q.length - 1] :=
      List.getElem_append_left h3
    have hclose : q.length - 1 = R.length - 1 :=
      good_close hR h3 (by rw [← he2, ← he, hqlast])
    have hqR : q <+: R :=
      List.prefix_of_prefix_length_le h (List.prefix_append R t) hle
    exact hqR.eq_of_length (by omega)
  · have h3 : R.length - 1 < R.length := by omega
    have h1 : R.length - 1 < q.length := by omega
    have h4 : R.length - 1 < (R ++ t).length := by
      rw [List.length_append]
      omega
    have he : q[R.length - 1] = (R ++ t)[R.length - 1] := h.getElem h1
    have he2 : (R ++ t)[R.length - 1] = R[R.length - 1] :=
      List.getElem_append_left h3
    have hlast : R[R.length - 1] = ')' := good_last hR h3
    have : R.length - 1 = q.length - 1 :=
      good_close hq h1 (by rw [he, he2, hlast])
    omega

/-- No good token other than `R` starts strictly inside the good token `R`,
even allowing it to run on into the following text `t`. -/
theorem good_no_inner {q R t : Str} (hq : goodTok q = true)
    (hR : goodTok R = true) (hne : q ≠ R) {k : Nat} (hk : k < R.length)
    (h : q <+: R.drop k ++ t) : False := by
  have hq5 := good_len hq
  have hR5 := good_len hR
  rcases le_or_lt (k + 4) R.length with h4 | h4
  · have h3q : 3 < q.length := by omega
    have h3d : 3 < (R.drop k).length := by
      rw [List.length_drop]
      omega
    have h3a : 3 < (R.drop k ++ t).length := by
      rw [List.length_append]
      omega
    have he : q[3] = (R.drop k ++ t)[3] := h.getElem h3q
    have he2 : (R.drop k ++ t)[3] = (R.drop k)[3] :=
      List.getElem_append_left h3d
    have he3 : (R.drop k)[3] = R[k + 3] := List.getElem_drop R
    have hq3 : q[3] = '(' := good_at3 hq (by omega)
    have hk3 : R[k + 3] = '(' := by
      rw [← he3, ← he2, ← he, hq3]
    have := good_paren hR (by omega) hk3
    have hk0 : k = 0 := by omega
    subst hk0
    simp only [List.drop_zero] at h
    exact hne (good_pref_app hq hR h)
  · have hik : R.length - 1 - k < (R.drop k).length := by
      rw [List.length_drop]
      omega
    have hiq : R.length - 1 - k < q.length := by omega
    have hia : R.length - 1 - k < (R.drop k ++ t).length := by
      rw [List.length_append]
      omega
    have he : q[R.length - 1 - k] = (R.drop k ++ t)[R.length - 1 - k] :=
      h.getElem hiq
    have he2 : (R.drop k ++ t)[R.length - 1 - k] = (R.drop k)[R.length - 1 - k] :=
      List.getElem_append_left hik
    have he3 : (R.drop k)[R.length - 1 - k] = R[k + (R.length - 1 - k)] :=
      List.getElem_drop R
    have hkk : k + (R.length - 1 - k) = R.length - 1 := by omega
    have hlast : R[k + (R.length - 1 - k)] = ')' := by
      have hRlast : R[R.length - 1] = ')' := good_last hR (by omega)
      simp only [hkk]
      exact hRlast
    have hcl : q[R.length - 1 - k] = ')' := by
      rw [he, he2, he3, hlast]
    have := good_close hq hiq hcl
    omega

/-- A proper tail of a good token is never a prefix of `R ++ t`
for a good `R`: the tail would have to reach an opening parenthesis or end
in a closing parenthesis where `R` has none. -/
theorem good_no_tail {q R t : Str} (hq : goodTok q = true)
    (hR : goodTok R = true) {k : Nat} (h0 : 0 < k) (hk : k < q.length)
    (h : q.drop k <+: R ++ t) : False := by
  have hq5 := good_len hq
  have hR5 := good_len hR
  rcases le_or_lt (k + 4) q.length with h4 | h4
  · have h3d : 3 < (q.drop k).length := by
      rw [List.length_drop]
      omega
    have h3a : 3 < (R ++ t).length := by
      rw [List.length_append]
      omega
    have he : (q.drop k)[3] = (R ++ t)[3] := h.getElem h3d
    have he2 : (R ++ t)[3] = R[3] := List.getElem_append_left (by omega)
    have he3 : (q.drop k)[3] = q[k + 3] := List.getElem_drop q
    have hR3 : R[3] = '(' := good_at3 hR (by omega)
    have hq3 : q[k + 3] = '(' := by
      rw [← he3, he, he2, hR3]
    have := good_paren hq (by omega) hq3
    omega
  · have hik : q.length - 1 - k < (q.drop k).length := by
      rw [List.length_drop]
      omega
    have hi3 : q.length - 1 - k < 3 := by omega
    have hia : q.length - 1 - k < (R ++ t).length := by
      rw [List.length_append]
      omega
    have he : (q.drop k)[q.length - 1 - k] = (R ++ t)[q.length - 1 - k] :=
      h.getElem hik
    have he2 : (R ++ t)[q.length - 1 - k] = R[q.length - 1 - k] :=
      List.getElem_append_left (by omega)
    have he3 : (q.drop k)[q.length - 1 - k] = q[k + (q.length - 1 - k)] :=
      List.getElem_drop q
    have hkk : k + (q.length - 1 - k) = q.length - 1 := by omega
    have hlastq : q[k + (q.length - 1 - k)] = ')' := by
      have : q[q.length - 1] = ')' := good_last hq (by omega)
      simp only [hkk]
      exact this
    have hRcl : R[q.length - 1 - k] = ')' := by
      rw [← he2, ← he, he3, hlastq]
    have := good_close hR (by omega) hRcl
    omega

/-- An occurrence in `a ++ t` starts inside `a` or is an occurrence in `t`. -/
theorem occurs_split {q : Str} : ∀ {a t : Str}, occursIn q (a ++ t) = true →
    (∃ k, k < a.length ∧ q <+: a.drop k ++ t) ∨ occursIn q t = true := by
  intro a
  induction a with
  | nil =>
    intro t h
    right
    simpa using h
  | cons c a' ih =>
    intro t h
    rw [List.cons_append] at h
    simp only [occursIn, Bool.or_eq_true] at h
    rcases h with h | h
    · left
      exact ⟨0, by simp, by simpa using prefOfB h⟩
    · rcases ih h with ⟨k, hk, hp⟩ | h'
      · left
        refine ⟨k + 1, by simpa using hk, ?_⟩
        simpa using hp
      · right
        exact h'

/-- A good token `q` distinct from the good token `R` occurs in `R ++ t`
only by occurring in `t`. -/
theorem occurs_append_good {q R t : Str} (hq : goodTok q = true)
    (hR : goodTok R = true) (hne : q ≠ R)
    (h : occursIn q (R ++ t) = true) : occursIn q t = true := by
  rcases occurs_split h with ⟨k, hk, hp⟩ | h'
  · exact absurd hp (fun hp => good_no_inner hq hR hne hk hp)
  · exact h'

/-- Every substitution either leaves the text unchanged or exposes a
leading decomposition around the first replaced match. -/
theorem csub_decomp (pat repl : Str) : ∀ n s, s.length ≤ n →
    csub pat repl s = s ∨
    ∃ a b, s = a ++ pat ++ b ∧ csub pat repl s = a ++ repl ++ csub pat repl b := by
  intro n
  induction n with
  | zero =>
    intro s hs
    left
    cases s with
    | nil => rfl
    | cons c rest => simp at hs
  | succ n ih =>
    intro s hs
    cases s with
    | nil => left; rfl
    | cons c rest =>
      cases hg : (pat.isPrefixOf (c :: rest) && !pat.isEmpty) with
      | true =>
        right
        have hb := (Bool.and_eq_true _ _).mp hg
        have hp : pat <+: (c :: rest) := prefOfB hb.1
        obtain ⟨b, hbEq⟩ := hp
        refine ⟨[], b, by simpa using hbEq.symm, ?_⟩
        rw [csub_cons_pos repl hg]
        have hdrop : rest.drop (pat.length - 1) = b := by
          have hd : (c :: rest).drop pat.length = b := by
            rw [← hbEq]
            exact List.drop_left pat b
          cases hpat : pat with
          | nil =>
            rw [hpat] at hb
            simp at hb
          | cons p0 ps =>
            rw [hpat] at hd
            simpa using hd
        rw [hdrop]
        simp
      | false =>
        rcases ih rest (Nat.le_of_succ_le_succ hs) with h1 | ⟨a, b, hab, hsub⟩
        · left
          rw [csub_cons_neg repl hg, h1]
        · right
          refine ⟨c :: a, b, by simp [hab], ?_⟩
          rw [csub_cons_neg repl hg, hsub]
          simp

/-- If a good token `Q` (distinct from the good replacement) is a prefix of
the head-preserving substitution output `c :: csub pat repl rest`, it was
already a prefix of `c :: rest`. -/
theorem good_head {Q pat repl : Str} (hQ : goodTok Q = true)
    (hr : goodTok repl = true) (hne : Q ≠ repl) {c : Char} {rest : Str}
    (h : Q <+: c :: csub pat repl rest) : Q <+: c :: rest := by
  have hQ5 := good_len hQ
  cases Q with
  | nil => simp at hQ5
  | cons q0 Q' =>
    rw [List.cons_prefix_cons] at h
    obtain ⟨rfl, h'⟩ := h
    rcases csub_decomp pat repl rest.length rest (le_refl _) with hid | ⟨a, b, hab, hsub⟩
    · rw [hid] at h'
      exact List.cons_prefix_cons.mpr ⟨rfl, h'⟩
    · rw [hsub] at h'
      rcases le_or_lt Q'.length a.length with hle | hlt
      · have haX : a <+: a ++ repl ++ csub pat repl b := by
          rw [List.append_assoc]
          exact List.prefix_append a _
        have hQa : Q' <+: a := List.prefix_of_prefix_length_le h' haX hle
        have : Q' <+: rest := by
          rw [hab, List.append_assoc]
          exact hQa.trans (List.prefix_append a _)
        exact List.cons_prefix_cons.mpr ⟨rfl, this⟩
      · have haX : a <+: a ++ repl ++ csub pat repl b := by
          rw [List.append_assoc]
          exact List.prefix_append a _
        have haQ : a <+: Q' := List.prefix_of_prefix_length_le haX h' (le_of_lt hlt)
        obtain ⟨z, hz⟩ := haQ
        have hzlen : 0 < z.length := by
          have := congrArg List.length hz
          simp only [List.length_append] at this
          omega
        have hzp : z <+: repl ++ csub pat repl b := by
          have h2 := h'
          rw [← hz, List.append_assoc] at h2
          exact (List.prefix_append_right_inj a).mp h2
        have hzdrop : (q0 :: Q').drop (a.length + 1) = z := by
          have : Q'.drop a.length = z := by
            rw [← hz]
            exact List.drop_left a z
          simpa using this
        have hQlen := congrArg List.length hz
        simp only [List.length_append] at hQlen
        exact absurd (by rw [hzdrop]; exact hzp) (fun hcon =>
          good_no_tail hQ hr (k := a.length + 1) (by omega) (by simp; omega) hcon)

/-- Substituting the good replacement for the good pattern removes every
occurrence of the pattern and creates no new one. -/
theorem csub_kills {pat repl : Str} (hp : goodTok pat = true)
    (hr : goodTok repl = true) (hne : pat ≠ repl) :
    ∀ n s, s.length ≤ n → occursIn pat (csub pat repl s) = false := by
  intro n
  induction n with
  | zero =>
    intro s hs
    cases s with
    | nil => simp [csub_nil, occursIn, good_isEmpty hp]
    | cons c rest => simp at hs
  | succ n ih =>
    intro s hs
    cases s with
    | nil => simp [csub_nil, occursIn, good_isEmpty hp]
    | cons c rest =>
      cases hg : (pat.isPrefixOf (c :: rest) && !pat.isEmpty) with
      | true =>
        rw [csub_cons_pos repl hg]
        cases hocc : occursIn pat (repl ++ csub pat repl (rest.drop (pat.length - 1))) with
        | false => rfl
        | true =>
          exfalso
          have h2 := occurs_append_good hp hr hne hocc
          have hlen : (rest.drop (pat.length - 1)).length ≤ n := by
            have := dropLenLe (pat.length - 1) rest
            simp only [List.length_cons] at hs
            omega
          rw [ih _ hlen] at h2
          exact Bool.false_ne_true h2
      | false =>
        rw [csub_cons_neg repl hg]
        simp only [occursIn, Bool.or_eq_false_iff]
        constructor
        · cases hpre : pat.isPrefixOf (c :: csub pat repl rest) with
          | false => rfl
          | true =>
            exfalso
            have hstep : pat <+: c :: rest := good_head hp hr hne (prefOfB hpre)
            have : (pat.isPrefixOf (c :: rest) && !pat.isEmpty) = true := by
              rw [prefToB hstep, good_isEmpty hp]
              rfl
            rw [hg] at this
            exact Bool.false_ne_true this
        · exact ih rest (by simpa using Nat.le_of_succ_le_succ hs)

/-- Substitution by any rule with a good replacement distinct from the good
token `Q` never introduces an occurrence of `Q`. -/
theorem csub_preserves {Q pat repl : Str} (hQ : goodTok Q = true)
    (hr : goodTok repl = true) (hne : Q ≠ repl) :
    ∀ n s, s.length ≤ n → occursIn Q s = false →
      occursIn Q (csub pat repl s) = false := by
  intro n
  induction n with
  | zero =>
    intro s hs hocc
    cases s with
    | nil => simpa [csub_nil] using hocc
    | cons c rest => simp at hs
  | succ n ih =>
    intro s hs hocc
    cases s with
    | nil => simpa [csub_nil] using hocc
    | cons c rest =>
      cases hg : (pat.isPrefixOf (c :: rest) && !pat.isEmpty) with
      | true =>
        rw [csub_cons_pos repl hg]
        cases hocc2 : occursIn Q (repl ++ csub pat repl (rest.drop (pat.length - 1))) with
        | false => rfl
        | true =>
          exfalso
          have h2 := occurs_append_good hQ hr hne hocc2
          have hdrop : occursIn Q (rest.drop (pat.length - 1)) = false := by
            have h3 : occursIn Q rest = false := by
              simp only [occursIn, Bool.or_eq_false_iff] at hocc
              exact hocc.2
            exact occursIn_drop _ h3
          have hlen : (rest.drop (pat.length - 1)).length ≤ n := by
            have := dropLenLe (pat.length - 1) rest
            simp only [List.length_cons] at hs
            omega
          rw [ih _ hlen hdrop] at h2
          exact Bool.false_ne_true h2
      | false =>
        rw [csub_cons_neg repl hg]
        simp only [occursIn, Bool.or_eq_false_iff] at hocc ⊢
        refine ⟨?_, ih rest (by simpa using Nat.le_of_succ_le_succ hs) hocc.2⟩
        cases hpre : Q.isPrefixOf (c :: csub pat repl rest) with
        | false => rfl
        | true =>
          exfalso
          have hstep : Q <+: c :: rest := good_head hQ hr hne (prefOfB hpre)
          rw [prefToB hstep] at hocc
          exact Bool.false_ne_true hocc.1.symm

/-- Converse of `matchStarts_nil_of_not_occurs` for non-empty patterns:
an empty scan result means the pattern occurs nowhere. -/
theorem not_occurs_of_matchF_nil {pat : Str} (hne : pat ≠ []) :
    ∀ n s i, s.length ≤ n → matchStartsF pat n s i = [] → occursIn pat s = false := by
  intro n
  induction n with
  | zero =>
    intro s i hm _
    cases s with
    | nil => simpa [occursIn] using List.isEmpty_eq_false.mpr hne
    | cons c rest => simp at hm
  | succ n ih =>
    intro s i hm hms
    cases s with
    | nil => simpa [occursIn] using List.isEmpty_eq_false.mpr hne
    | cons c rest =>
      cases hg : (pat.isPrefixOf (c :: rest) && !pat.isEmpty) with
      | true =>
        rw [matchStartsF, hg] at hms
        simp at hms
      | false =>
        have hpre : pat.isPrefixOf (c :: rest) = false := by
          cases hp : pat.isPrefixOf (c :: rest) with
          | false => rfl
          | true =>
            rw [hp, List.isEmpty_eq_false.mpr hne] at hg
            simp at hg
        rw [matchStartsF, hg] at hms
        simp only [Bool.false_eq_true, if_false] at hms
        simp only [occursIn, hpre, Bool.false_or]
        exact ih rest (i + 1) (Nat.le_of_succ_le_succ hm) hms

theorem not_occurs_of_match_nil {pat s : Str} (hne : pat ≠ [])
    (h : matchStarts pat s = []) : occursIn pat s = false :=
  not_occurs_of_matchF_nil hne s.length s 0 (le_refl _) h

theorem applyRules_cons_none {pat repl : Str} {rs : List (Str × Str)} {s : Str}
    (h : matchStarts pat s = []) :
    applyRules ((pat, repl) :: rs) s = applyRules rs s := by
  simp [applyRules, h]

theorem applyRules_cons_some {pat repl : Str} {rs : List (Str × Str)} {s : Str}
    (h : (matchStarts pat s).isEmpty = false) :
    applyRules ((pat, repl) :: rs) s =
      (((matchStarts pat s).map fun p => (⟨lineAt s p, pat, repl⟩ : Change)) ++
         (applyRules rs (csub pat repl s)).1,
       (applyRules rs (csub pat repl s)).2) := by
  simp [applyRules, h]

/-- Running further rules never re-introduces a good token `Q` as long as
`Q` differs from every replacement used. -/
theorem applyRules_preserves {Q : Str} (hQ : goodTok Q = true) :
    ∀ rs t, (∀ pr ∈ rs, goodTok (pr.2 : Str) = true ∧ Q ≠ pr.2) →
      occursIn Q t = false → occursIn Q (applyRules rs t).2 = false := by
  intro rs
  induction rs with
  | nil =>
    intro t _ h
    simpa [applyRules] using h
  | cons pr rs' ih =>
    intro t hcond hocc
    obtain ⟨pat, repl⟩ := pr
    cases he : (matchStarts pat t).isEmpty with
    | true =>
      rw [applyRules_cons_none (List.isEmpty_iff.mp he)]
      exact ih t (fun x hx => hcond x (List.mem_cons_of_mem _ hx)) hocc
    | false =>
      rw [applyRules_cons_some he]
      have h1 := hcond (pat, repl) (List.mem_cons_self _ _)
      exact ih _ (fun x hx => hcond x (List.mem_cons_of_mem _ hx))
        (csub_preserves hQ h1.1 h1.2 t.length t (le_refl _) hocc)

/-- After one full pass of a well-shaped, replacement-disjoint rule list,
no rule's pattern occurs in the rewritten content. -/
theorem applyRules_clean :
    ∀ (rs : List (Str × Str)) (s : Str),
      (∀ pr ∈ rs, goodTok (pr.1 : Str) = true ∧ goodTok (pr.2 : Str) = true) →
      (∀ x ∈ rs, ∀ y ∈ rs, (x.1 : Str) ≠ y.2) →
      ∀ pr ∈ rs, occursIn pr.1 (applyRules rs s).2 = false := by
  intro rs
  induction rs with
  | nil =>
    intro s _ _ pr hpr
    cases hpr
  | cons hd rs' ih =>
    intro s hgood hcross pr hpr
    obtain ⟨pat, repl⟩ := hd
    have hg := hgood (pat, repl) (List.mem_cons_self _ _)
    have hgood' : ∀ x ∈ rs', goodTok (x.1 : Str) = true ∧ goodTok (x.2 : Str) = true :=
      fun x hx => hgood x (List.mem_cons_of_mem _ hx)
    have hcross' : ∀ x ∈ rs', ∀ y ∈ rs', (x.1 : Str) ≠ y.2 :=
      fun x hx y hy => hcross x (List.mem_cons_of_mem _ hx) y (List.mem_cons_of_mem _ hy)
    have hcondTail : ∀ x ∈ rs', goodTok (x.2 : Str) = true ∧ pat ≠ x.2 :=
      fun x hx => ⟨(hgood x (List.mem_cons_of_mem _ hx)).2,
        hcross (pat, repl) (List.mem_cons_self _ _) x (List.mem_cons_of_mem _ hx)⟩
    rcases List.mem_cons.mp hpr with heq | hmem
    · have hpr1 : (pr.1 : Str) = pat := by rw [heq]
      rw [hpr1]
      cases he : (matchStarts pat s).isEmpty with
      | true =>
        rw [applyRules_cons_none (List.isEmpty_iff.mp he)]
        have hocc : occursIn pat s = false :=
          not_occurs_of_match_nil (good_ne_nil hg.1) (List.isEmpty_iff.mp he)
        exact applyRules_preserves hg.1 rs' s hcondTail hocc
      | false =>
        rw [applyRules_cons_some he]
        have hself : (pat : Str) ≠ repl :=
          hcross (pat, repl) (List.mem_cons_self _ _) (pat, repl) (List.mem_cons_self _ _)
        have hkill := csub_kills hg.1 hg.2 hself s.length s (le_refl _)
        exact applyRules_preserves hg.1 rs' _ hcondTail hkill
    · cases he : (matchStarts pat s).isEmpty with
      | true =>
        rw [applyRules_cons_none (List.isEmpty_iff.mp he)]
        exact ih s hgood' hcross' pr hmem
      | false =>
        rw [applyRules_cons_some he]
        exact ih (csub pat repl s) hgood' hcross' pr hmem

/-- When no pattern of the rule list occurs in the content, the full pass
records no change and leaves the content untouched. -/
theorem applyRules_no_changes :
    ∀ (rs : List (Str × Str)) (t : Str), (∀ pr ∈ rs, occursIn pr.1 t = false) →
      applyRules rs t = ([], t) := by
  intro rs
  induction rs with
  | nil => intro t _; rfl
  | cons hd rs' ih =>
    intro t h
    obtain ⟨pat, repl⟩ := hd
    have hms : matchStarts pat t = [] :=
      matchStarts_nil_of_not_occurs (h (pat, repl) (List.mem_cons_self _ _))
    rw [applyRules_cons_none hms]
    exact ih t (fun x hx => h x (List.mem_cons_of_mem _ hx))

theorem rulesOk_good {rs : List (Str × Str)} (h : rulesOk rs = true) :
    ∀ pr ∈ rs, goodTok (pr.1 : Str) = true ∧ goodTok (pr.2 : Str) = true := by
  intro pr hpr
  have h1 := (List.all_eq_true.mp ((Bool.and_eq_true _ _).mp h).1) pr hpr
  exact (Bool.and_eq_true _ _).mp h1

theorem rulesOk_cross {rs : List (Str × Str)} (h : rulesOk rs = true) :
    ∀ x ∈ rs, ∀ y ∈ rs, (x.1 : Str) ≠ y.2 := by
  intro x hx y hy
  have h1 := (List.all_eq_true.mp ((Bool.and_eq_true _ _).mp h).2) x hx
  have h2 := (List.all_eq_true.mp h1) y hy
  simpa using h2

theorem replacements_ok : rulesOk REPLACEMENTS = true := by decide

theorem skipOrphans_cons_term {n : Str} {rest : List Str}
    (h1 : orphanShape (pstrip n) = true)
    (h2 : endsWithS "\x7d)".toList (pstrip n) = true) :
    skipOrphans (n :: rest) = ([], rest, 1) := by
  rw [skipOrphans, if_pos h1, if_pos h2]

theorem skipOrphans_cons_skip {n : Str} {rest : List Str}
    (h1 : orphanShape (pstrip n) = true)
    (h2 : ¬ endsWithS "\x7d)".toList (pstrip n) = true) :
    skipOrphans (n :: rest) =
      ((skipOrphans rest).1, (skipOrphans rest).2.1, (skipOrphans rest).2.2 + 1) := by
  rw [skipOrphans, if_pos h1, if_neg h2]

theorem skipOrphans_cons_stop {n : Str} {rest : List Str}
    (h1 : ¬ orphanShape (pstrip n) = true) :
    skipOrphans (n :: rest) = ([n], n :: rest, 0) := by
  rw [skipOrphans, if_neg h1]

theorem skipOrphans_rem_le : ∀ ls : List Str, (skipOrphans ls).2.1.length ≤ ls.length := by
  intro ls
  induction ls with
  | nil => simp [skipOrphans]
  | cons n rest ih =>
    by_cases h1 : orphanShape (pstrip n) = true
    · by_cases h2 : endsWithS "\x7d)".toList (pstrip n) = true
      · rw [skipOrphans_cons_term h1 h2]
        simp
      · rw [skipOrphans_cons_skip h1 h2]
        simp only [List.length_cons]
        omega
    · rw [skipOrphans_cons_stop h1]

theorem strLt_trans : ∀ {a b c : Str}, strLt a b = true → strLt b c = true →
    strLt a c = true := by
  intro a
  induction a with
  | nil =>
    intro b c hab hbc
    cases b with
    | nil => simp [strLt] at hab
    | cons y ys =>
      cases c with
      | nil => simp [strLt] at hbc
      | cons z zs => rfl
  | cons x xs ih =>
    intro b c hab hbc
    cases b with
    | nil => simp [strLt] at hab
    | cons y ys =>
      cases c with
      | nil => simp [strLt] at hbc
      | cons z zs =>
        simp only [strLt] at hab hbc ⊢
        by_cases hxy : x = y
        · rw [if_pos hxy] at hab
          by_cases hyz : y = z
          · rw [if_pos hyz] at hbc
            rw [if_pos (hxy.trans hyz)]
            exact ih hab hbc
          · rw [if_neg hyz] at hbc
            have hlt : y < z := of_decide_eq_true hbc
            have hxz : x ≠ z := by
              rw [hxy]
              exact ne_of_lt hlt
            rw [if_neg hxz]
            rw [hxy]
            exact hbc
        · rw [if_neg hxy] at hab
          have hlt1 : x < y := of_decide_eq_true hab
          by_cases hyz : y = z
          · have hxz : x ≠ z := by
              rw [← hyz]
              exact hxy
            rw [if_neg hxz]
            rw [← hyz]
            exact hab
          · rw [if_neg hyz] at hbc
            have hlt2 : y < z := of_decide_eq_true hbc
            have hxz : x < z := lt_trans hlt1 hlt2
            rw [if_neg (ne_of_lt hxz)]
            exact decide_eq_true hxz

theorem strLt_asymm : ∀ {a b : Str}, strLt a b = true → strLt b a = true → False := by
  intro a
  induction a with
  | nil =>
    intro b hab hba
    cases b with
    | nil => simp [strLt] at hab
    | cons y ys => simp [strLt] at hba
  | cons x xs ih =>
    intro b hab hba
    cases b with
    | nil => simp [strLt] at hab
    | cons y ys =>
      simp only [strLt] at hab hba
      by_cases hxy : x = y
      · rw [if_pos hxy] at hab
        rw [if_pos hxy.symm] at hba
        exact ih hab hba
      · rw [if_neg hxy] at hab
        rw [if_neg (Ne.symm hxy)] at hba
        exact lt_asymm (of_decide_eq_true hab) (of_decide_eq_true hba)

theorem strLt_conn : ∀ {a b : Str}, a ≠ b → strLt a b = true ∨ strLt b a = true := by
  intro a
  induction a with
  | nil =>
    intro b hne
    cases b with
    | nil => exact absurd rfl hne
    | cons y ys => left; rfl
  | cons x xs ih =>
    intro b hne
    cases b with
    | nil => right; rfl
    | cons y ys =>
      by_cases hxy : x = y
      · have hts : xs ≠ ys := by
          intro he
          exact hne (by rw [hxy, he])
        rcases ih hts with h | h
        · left
          simp only [strLt, if_pos hxy]
          exact h
        · right
          simp only [strLt, if_pos hxy.symm]
          exact h
      · rcases lt_trichotomy x y with h | h | h
        · left
          simp only [strLt, if_neg hxy]
          exact decide_eq_true h
        · exact absurd h hxy
        · right
          simp only [strLt, if_neg (Ne.symm hxy)]
          exact decide_eq_true h

theorem pathLe_trans : ∀ {a b c : PPath}, pathLe a b = true → pathLe b c = true →
    pathLe a c = true := by
  intro a
  induction a with
  | nil => intro b c _ _; rfl
  | cons p ps ih =>
    intro b c hab hbc
    cases b with
    | nil => simp [pathLe] at hab
    | cons q qs =>
      cases c with
      | nil => simp [pathLe] at hbc
      | cons r rs =>
        simp only [pathLe] at hab hbc ⊢
        by_cases hpq : p = q
        · rw [if_pos hpq] at hab
          by_cases hqr : q = r
          · rw [if_pos hqr] at hbc
            rw [if_pos (hpq.trans hqr)]
            exact ih hab hbc
          · rw [if_neg hqr] at hbc
            have hpr : p ≠ r := by
              rw [hpq]
              exact hqr
            rw [if_neg hpr, hpq]
            exact hbc
        · rw [if_neg hpq] at hab
          by_cases hqr : q = r
          · have hpr : p ≠ r := by
              rw [← hqr]
              exact hpq
            rw [if_neg hpr, ← hqr]
            exact hab
          · rw [if_neg hqr] at hbc
            by_cases hpr : p = r
            · exfalso
              rw [hpr] at hab
              exact strLt_asymm hbc hab
            · rw [if_neg hpr]
              exact strLt_trans hab hbc

theorem pathLe_total : ∀ a b : PPath, (pathLe a b || pathLe b a) = true := by
  intro a
  induction a with
  | nil => intro b; rfl
  | cons p ps ih =>
    intro b
    cases b with
    | nil => simp [pathLe]
    | cons q qs =>
      by_cases hpq : p = q
      · simp only [pathLe, if_pos hpq, if_pos hpq.symm]
        exact ih qs
      · rcases strLt_conn hpq with h | h
        · simp only [pathLe, if_pos rfl, if_neg hpq, h, Bool.true_or]
        · simp only [pathLe, if_neg hpq, if_neg (Ne.symm hpq), h, Bool.or_true]

theorem pathLe_antisymm : ∀ {a b : PPath}, pathLe a b = true → pathLe b a = true →
    a = b := by
  intro a
  induction a with
  | nil =>
    intro b _ hba
    cases b with
    | nil => rfl
    | cons q qs => simp [pathLe] at hba
  | cons p ps ih =>
    intro b hab hba
    cases b with
    | nil => simp [pathLe] at hab
    | cons q qs =>
      simp only [pathLe] at hab hba
      by_cases hpq : p = q
      · rw [if_pos hpq] at hab
        rw [if_pos hpq.symm] at hba
        rw [hpq, ih hab hba]
      · rw [if_neg hpq] at hab
        rw [if_neg (Ne.symm hpq)] at hba
        exact absurd hba (by intro hcon; exact strLt_asymm hab hcon)

/-- Rule passes compose: the changes and content of a run over
`rs1 ++ rs2` are those of `rs1` on the original content followed by those
of `rs2` on the content left by `rs1`. -/
theorem applyRules_append : ∀ (rs1 rs2 : List (Str × Str)) (s : Str),
    applyRules (rs1 ++ rs2) s =
      ((applyRules rs1 s).1 ++ (applyRules rs2 (applyRules rs1 s).2).1,
       (applyRules rs2 (applyRules rs1 s).2).2) := by
  intro rs1
  induction rs1 with
  | nil =>
    intro rs2 s
    simp [applyRules]
  | cons hd rs1' ih =>
    intro rs2 s
    obtain ⟨pat, repl⟩ := hd
    cases he : (matchStarts pat s).isEmpty with
    | true =>
      rw [List.cons_append, applyRules_cons_none (List.isEmpty_iff.mp he),
        applyRules_cons_none (List.isEmpty_iff.mp he), ih]
    | false =>
      rw [List.cons_append, applyRules_cons_some he, applyRules_cons_some he, ih]
      simp [List.append_assoc]

/-- One rule's pass records one change per match, with the line number
taken from the content the pass started with. -/
theorem applyRules_single : ∀ (pat repl : Str) (s : Str),
    applyRules [(pat, repl)] s =
      ((matchStarts pat s).map (fun p => (⟨lineAt s p, pat, repl⟩ : Change)),
       if (matchStarts pat s).isEmpty then s else csub pat repl s) := by
  intro pat repl s
  cases he : (matchStarts pat s).isEmpty with
  | true =>
    rw [applyRules_cons_none (List.isEmpty_iff.mp he)]
    rw [List.isEmpty_iff.mp he]
    simp [applyRules, he]
  | false =>
    rw [applyRules_cons_some he]
    simp [applyRules, he]

theorem processFile_changes_indep (s : Str) (d1 d2 : Bool) :
    (processFile s d1).changes = (processFile s d2).changes ∧
    (processFile s d1).modified = (processFile s d2).modified := by
  by_cases h : (applyRules REPLACEMENTS s).2 ≠ s <;>
    simp [processFile, h]

theorem summaryStep_scanned (a : Summary) (r : FileResult) :
    (summaryStep a r).scanned = a.scanned + 1 := by
  rw [summaryStep]
  split <;> rfl

theorem summaryStep_mt {a b : Summary} (r1 r2 : FileResult)
    (hch : r1.changes = r2.changes)
    (hm : a.modifiedFiles = b.modifiedFiles)
    (ht : a.totalChanges = b.totalChanges) :
    (summaryStep a r1).modifiedFiles = (summaryStep b r2).modifiedFiles ∧
    (summaryStep a r1).totalChanges = (summaryStep b r2).totalChanges := by
  rw [summaryStep, summaryStep, hch]
  split <;> simp [hm, ht, hch]

/-- The run summary is the same in dry-run and apply mode. -/
theorem runSummary_indep : ∀ (files : List Str) (acc : Summary) (d1 d2 : Bool),
    files.foldl (fun acc f => summaryStep acc (processFile f d1)) acc =
    files.foldl (fun acc f => summaryStep acc (processFile f d2)) acc := by
  intro files
  induction files with
  | nil => intro acc d1 d2; rfl
  | cons f fs ih =>
    intro acc d1 d2
    simp only [List.foldl_cons]
    rw [show summaryStep acc (processFile f d1) = summaryStep acc (processFile f d2) by
      rw [summaryStep, summaryStep, (processFile_changes_indep f d1 d2).1]]
    exact ih _ d1 d2

theorem runEFold_scanned (d : Bool) : ∀ (files : List (ReadRes × Bool)) (acc : Summary),
    (files.foldl (fun a f => summaryStep a (processFileE f.1 f.2 d)) acc).scanned =
      acc.scanned + files.length := by
  intro files
  induction files with
  | nil => intro acc; simp
  | cons f fs ih =>
    intro acc
    simp only [List.foldl_cons, List.length_cons]
    rw [ih, summaryStep_scanned]
    omega

theorem runEFold_mt (d : Bool) : ∀ (files : List (ReadRes × Bool)) (a b : Summary),
    a.modifiedFiles = b.modifiedFiles → a.totalChanges = b.totalChanges →
    ((files.foldl (fun x f => summaryStep x (processFileE f.1 f.2 d)) a).modifiedFiles =
       (files.foldl (fun x f => summaryStep x (processFileE f.1 f.2 d)) b).modifiedFiles ∧
     (files.foldl (fun x f => summaryStep x (processFileE f.1 f.2 d)) a).totalChanges =
       (files.foldl (fun x f => summaryStep x (processFileE f.1 f.2 d)) b).totalChanges) := by
  intro files
  induction files with
  | nil => intro a b hm ht; exact ⟨hm, ht⟩
  | cons f fs ih =>
    intro a b hm ht
    simp only [List.foldl_cons]
    have hstep := summaryStep_mt (a := a) (b := b)
      (processFileE f.1 f.2 d) (processFileE f.1 f.2 d) rfl hm ht
    exact ih _ _ hstep.1 hstep.2

/-- A run whose rule list contains a malformed pattern always ends each
file's loop with the recorded regex error. -/
theorem rulesLoop_err : ∀ (rules : List (CPat × Str)) (s : Str),
    hasBad rules = true → (rulesLoop rules s).2.2 = some reErrMsg := by
  intro rules
  induction rules with
  | nil => intro s h; simp [hasBad] at h
  | cons hd rs ih =>
    intro s h
    obtain ⟨cp, repl⟩ := hd
    cases cp with
    | bad src => rfl
    | lit pat =>
      have htail : hasBad rs = true := by
        simpa [hasBad] using h
      cases he : (matchStarts pat s).isEmpty with
      | true =>
        show (if (matchStarts pat s).isEmpty then rulesLoop rs s else _).2.2 = _
        rw [he, if_pos rfl]
        exact ih s htail
      | false =>
        show (if (matchStarts pat s).isEmpty then rulesLoop rs s else _).2.2 = _
        rw [he]
        simpa using ih (csub pat repl s) htail

theorem fixFileLines_sublist : ∀ (ls : List Str) (seen : Bool),
    (fixFileLines ls seen).Sublist ls := by
  intro ls
  induction ls with
  | nil => intro seen; exact List.Sublist.refl []
  | cons l rest ih =>
    intro seen
    simp only [fixFileLines]
    by_cases h1 : occursIn loggerLine l = true
    · rw [if_pos h1]
      cases seen with
      | true => exact List.Sublist.cons l (ih true)
      | false => exact List.Sublist.cons₂ l (ih true)
    · rw [if_neg h1]
      exact List.Sublist.cons₂ l (ih seen)

/-- C1, counterexample. The claim asserts idempotency for both process_file
and fix_orphaned_syntax; fix_orphaned_syntax applied to its own output
changes the content again on this input, so its output is not a fixed
point. -/
theorem c1_counterexample :
    (fixOrphaned ((fixOrphaned c1orig).1)).1 ≠ (fixOrphaned c1orig).1 ∧
    (fixOrphaned ((fixOrphaned c1orig).1)).2.1 ≠ 0 := by
  constructor <;> decide

/-- C1, amended. The rewrite of process_file is idempotent: for every file
content, running the REPLACEMENTS pass a second time on the output of the
first pass records no change and leaves the content fixed.
(fix_orphaned_syntax, also named by the claim, is not idempotent; see the
counterexample.) -/
theorem c1_theorem (s : Str) :
    applyRules REPLACEMENTS (applyRules REPLACEMENTS s).2 =
      ([], (applyRules REPLACEMENTS s).2) :=
  applyRules_no_changes _ _
    (applyRules_clean REPLACEMENTS s (rulesOk_good replacements_ok)
      (rulesOk_cross replacements_ok))

/-- C2, counterexample. process_file records the radius match at line 2,
the line number in the content after the line-height rule already ran,
while the claim's disk-content computation yields line 1 for the same
match: the records differ, so the line field is not computed against the
original content. -/
theorem c2_counterexample :
    (applyRules REPLACEMENTS c2input).1 ≠ (applyRulesOrig c2input REPLACEMENTS c2input).1 ∧
    (applyRules REPLACEMENTS c2input).1 =
      [⟨1, "var(--line-height-none)".toList, "var(--leading-none)".toList⟩,
       ⟨2, "var(--radius-small)".toList, "var(--radius-sm)".toList⟩] ∧
    (applyRulesOrig c2input REPLACEMENTS c2input).1 =
      [⟨1, "var(--line-height-none)".toList, "var(--leading-none)".toList⟩,
       ⟨1, "var(--radius-small)".toList, "var(--radius-sm)".toList⟩] := by
  refine ⟨?_, by decide, by decide⟩
  decide

/-- C2, amended. Every ChangeRecord's line field is the 1-indexed line
number at the match's start offset in the content as it stood at the start
of that rule's pass, that is after the substitutions of all earlier rules
of the same run: a run over `rs1 ++ rs2` computes the records of `rs2`
against the content produced by `rs1`, and a single rule's records take
their line numbers from that pass-start content via `lineAt`. -/
theorem c2_theorem :
    (∀ (rs1 rs2 : List (Str × Str)) (s : Str),
      applyRules (rs1 ++ rs2) s =
        ((applyRules rs1 s).1 ++ (applyRules rs2 (applyRules rs1 s).2).1,
         (applyRules rs2 (applyRules rs1 s).2).2)) ∧
    (∀ (pat repl : Str) (s : Str),
      applyRules [(pat, repl)] s =
        ((matchStarts pat s).map (fun p => (⟨lineAt s p, pat, repl⟩ : Change)),
         if (matchStarts pat s).isEmpty then s else csub pat repl s)) :=
  ⟨applyRules_append, applyRules_single⟩

/-- C3. Rules are applied sequentially in the order given: each rule's
matching runs over the output of all earlier rules' substitutions (the
content after `rs1 ++ rs2` is the content after `rs2` run on the output of
`rs1`), and swapping the order of two rules can change the final content,
witnessed by a pair where the first rule's replacement matches the second
rule's pattern. -/
theorem c3_theorem :
    (∀ (rs1 rs2 : List (Str × Str)) (s : Str),
      (applyRules (rs1 ++ rs2) s).2 = (applyRules rs2 (applyRules rs1 s).2).2) ∧
    (applyRules [ruleA, ruleB] ("var(--a)".toList)).2 ≠
      (applyRules [ruleB, ruleA] ("var(--a)".toList)).2 := by
  constructor
  · intro rs1 rs2 s
    rw [applyRules_append]
  · decide

/-- C4. On a file containing var(--border) exactly twice, on lines 1 and 2,
process_file reports modified, records exactly two changes at lines 1 and 2
with the expected before/after texts, and the rewritten content holds two
occurrences of var(--color-border) and none of the unqualified form. -/
theorem c4_theorem :
    (processFile c4input false).modified = true ∧
    (processFile c4input false).changes =
      [⟨1, "var(--border)".toList, "var(--color-border)".toList⟩,
       ⟨2, "var(--border)".toList, "var(--color-border)".toList⟩] ∧
    countOccs ("var(--color-border)".toList) (processFile c4input false).newContent = 2 ∧
    countOccs ("var(--border)".toList) (processFile c4input false).newContent = 0 := by
  refine ⟨by decide, by decide, by decide, by decide⟩

/-- C5. Dry-run equivalence: for every content, dry-run and apply mode
compute identical change records and the same modified flag, and a run over
any list of files produces an identical summary (files scanned, files
modified, total changes) in both modes. -/
theorem c5_theorem :
    (∀ (s : Str) (d1 d2 : Bool),
      (processFile s d1).changes = (processFile s d2).changes ∧
      (processFile s d1).modified = (processFile s d2).modified) ∧
    (∀ (files : List Str) (d1 d2 : Bool),
      runSummary files d1 = runSummary files d2) :=
  ⟨processFile_changes_indep, fun files d1 d2 => runSummary_indep files ⟨0, 0, 0⟩ d1 d2⟩

/-- C6, counterexample. fix_file of fix-all-duplicates.py performs a write
even on a file whose content it leaves unchanged, contradicting the claim
that an unchanged file is never written. -/
theorem c6_counterexample :
    (fixFileRun ("hello".toList)).2 = true ∧
    (fixFileRun ("hello".toList)).1 = "hello".toList := by
  constructor <;> decide

/-- C6, amended. process_file writes a file back exactly when the rewritten
content differs from the original and dry-run is off, and in dry-run mode it
never writes; fix_file of fix-all-duplicates.py, by contrast, writes every
successfully read file back unconditionally, even when its content is
unchanged. -/
theorem c6_theorem :
    (∀ (s : Str) (d : Bool),
      (processFile s d).wrote = ((processFile s d).modified && !d)) ∧
    (∀ c : Str, (fixFileRun c).2 = true) := by
  constructor
  · intro s d
    by_cases h : (applyRules REPLACEMENTS s).2 ≠ s <;> simp [processFile, h]
  · intro c
    rfl

/-- C7, counterexample. A file whose write fails is caught and recorded,
but it still counts towards filesModified, because main counts files with a
non-empty change list: the claim's exclusion of errored files from
filesModified fails for write errors. -/
theorem c7_counterexample :
    (processFileE (ReadRes.ok ("var(--border)".toList)) false false).error.isSome = true ∧
    (runE [(ReadRes.ok ("var(--border)".toList), false)] false).modifiedFiles = 1 := by
  constructor <;> decide

/-- C7, amended. Per-file error isolation holds for read errors: a read
failure is caught and recorded in that file's result with no changes and no
write, the remaining files are processed exactly as they would be without
the failing file (same filesModified and totalChanges, one more file
scanned). A write error, however, is recorded but still counted in
filesModified, since counting is based on the non-empty change list. -/
theorem c7_theorem : ∀ (pre post : List (ReadRes × Bool)) (m : Str) (w d : Bool),
    processFileE (ReadRes.err m) w d = ⟨[], false, some m, [], false⟩ ∧
    (runE (pre ++ (ReadRes.err m, w) :: post) d).scanned =
      (runE (pre ++ post) d).scanned + 1 ∧
    (runE (pre ++ (ReadRes.err m, w) :: post) d).modifiedFiles =
      (runE (pre ++ post) d).modifiedFiles ∧
    (runE (pre ++ (ReadRes.err m, w) :: post) d).totalChanges =
      (runE (pre ++ post) d).totalChanges := by
  intro pre post m w d
  refine ⟨rfl, ?_, ?_, ?_⟩
  · rw [runE, runE, runEFold_scanned, runEFold_scanned]
    simp only [List.length_append, List.length_cons]
    omega
  · rw [runE, runE, List.foldl_append, List.foldl_append, List.foldl_cons]
    exact (runEFold_mt d post _ _ (by rw [summaryStep]; rfl) (by rw [summaryStep]; rfl)).1
  · rw [runE, runE, List.foldl_append, List.foldl_append, List.foldl_cons]
    exact (runEFold_mt d post _ _ (by rw [summaryStep]; rfl) (by rw [summaryStep]; rfl)).2

/-- C8, counterexample. The scripts perform no RuleSet-construction
validation: a malformed pattern surfaces as a caught per-file error during
processing (contradicting the claim that it never surfaces as a per-file
error), and the run still processes every file rather than aborting. -/
theorem c8_counterexample :
    (processFileG badRules ("a".toList) false).error.isSome = true ∧
    (runG badRules ["a".toList, "b".toList] false).scanned = 2 := by
  constructor <;> decide

/-- C8, amended. There is no construction-time pattern validation: whenever
the rule list contains a pattern that fails to compile, each processed
file's result records the regex error caught by the per-file handler, with
`modified` false and nothing written; the run continues instead of
aborting. -/
theorem c8_theorem (rules : List (CPat × Str)) (content : Str) (d : Bool)
    (h : hasBad rules = true) :
    (processFileG rules content d).error.isSome = true ∧
    (processFileG rules content d).wrote = false ∧
    (processFileG rules content d).modified = false := by
  have herr := rulesLoop_err rules content h
  rw [processFileG]
  rw [herr]
  exact ⟨rfl, rfl, rfl⟩

/-- Witness for C8 at a concrete malformed rule list and file. -/
theorem c8_witness :
    hasBad badRules = true ∧
    ((processFileG badRules ("zz".toList) true).error.isSome = true ∧
     (processFileG badRules ("zz".toList) true).wrote = false ∧
     (processFileG badRules ("zz".toList) true).modified = false) :=
  ⟨by decide, c8_theorem badRules ("zz".toList) true (by decide)⟩

/-- C9, counterexample. The os.walk traversal of fix_orphaned's main keeps
the operating-system order and applies no sorting, so its file sequence
need not be in lexicographic path order. -/
theorem c9_counterexample :
    osWalkTs walkDemo = walkDemo ∧
    ¬ List.Pairwise (fun a b => pathLe a b = true) (osWalkTs walkDemo) := by
  constructor <;> decide

/-- C9, amended. find_files is deterministic and sorted: its output is
always in lexicographic path order (component-wise, as Python compares Path
objects), and any two directory listings containing the same files in any
order produce identical output. The os.walk traversal of fix_orphaned gives
no such guarantee (see the counterexample). -/
theorem c9_theorem :
    (∀ (exts : List Str) (listing : List PPath),
      List.Pairwise (fun a b => pathLe a b = true) (findFiles exts listing)) ∧
    (∀ (exts : List Str) (l1 l2 : List PPath), l1.Perm l2 →
      findFiles exts l1 = findFiles exts l2) := by
  constructor
  · intro exts listing
    exact @List.sorted_mergeSort PPath pathLe
      (fun a b c hab hbc => pathLe_trans hab hbc) pathLe_total _
  · intro exts l1 l2 hperm
    have hpf : ∀ es : List Str,
        (es.flatMap fun e => l1.filter (extMatches e)).Perm
          (es.flatMap fun e => l2.filter (extMatches e)) := by
      intro es
      induction es with
      | nil => simp
      | cons e es ih =>
        simp only [List.flatMap_cons]
        exact List.Perm.append (hperm.filter _) ih
    have hsort1 := @List.sorted_mergeSort PPath pathLe
      (fun a b c hab hbc => pathLe_trans hab hbc) pathLe_total
      (exts.flatMap fun e => l1.filter (extMatches e))
    have hsort2 := @List.sorted_mergeSort PPath pathLe
      (fun a b c hab hbc => pathLe_trans hab hbc) pathLe_total
      (exts.flatMap fun e => l2.filter (extMatches e))
    have hperm12 : (findFiles exts l1).Perm (findFiles exts l2) := by
      rw [findFiles, findFiles]
      exact ((List.mergeSort_perm _ pathLe).trans (hpf exts)).trans
        (List.mergeSort_perm _ pathLe).symm
    haveI : IsAntisymm PPath (fun a b => pathLe a b = true) :=
      ⟨fun a b hab hba => pathLe_antisymm hab hba⟩
    exact List.eq_of_perm_of_sorted hperm12 hsort1 hsort2

/-- Witness for C9 at a concrete extension list and two listings that are
permutations of each other. -/
theorem c9_witness :
    List.Pairwise (fun a b => pathLe a b = true)
      (findFiles [".ts".toList] walkDemo) ∧
    findFiles [".ts".toList] walkDemo =
      findFiles [".ts".toList] [["a.ts".toList], ["b.ts".toList]] :=
  ⟨c9_theorem.1 [".ts".toList] walkDemo,
   c9_theorem.2 [".ts".toList] walkDemo [["a.ts".toList], ["b.ts".toList]] (by decide)⟩

/-- C10. The line-removal claim holds for fix_file (its output lines are
always a subsequence of its input lines), but fix_orphaned_syntax violates
it: after a trigger line, its inner loop appends the first non-orphan line
and then breaks without advancing the index, so the outer loop appends the
same line again, against the code's own comment that the line is kept
(once). On the failing input the output repeats the line `hello` and is
not a subsequence of the input. -/
theorem c10_theorem :
    (∀ (ls : List Str) (seen : Bool), (fixFileLines ls seen).Sublist ls) ∧
    (fixLoop c10input).1 =
      ["handleErrorEnhanced(err)".toList, "hello".toList, "hello".toList] ∧
    ¬ ((fixLoop c10input).1.Sublist c10input) := by
  refine ⟨fixFileLines_sublist, by decide, ?_⟩
  intro h
  have hle := h.length_le
  revert hle
  decide
